import Mathlib

/-!
Verification of the entity-tuple context-discovery core of the
`master_thesis` database-creation pipeline.

Python strings are embedded as lists of characters (`PyStr`), Python sets
as `Finset`, Python dicts as association lists or extensional maps.
Each definition is translated from the corresponding function of the
source (`database_creation/utils.py`, `database_creation/article.py`,
`database_creation/database.py`); classes that the source imports but
whose definitions are not part of the analysed tree (`Entity`, `Tuple`,
`Query`, `Coreference`, `Sentence`) are modelled from the specification
and marked as such in their doc comments.
-/

/-- Embedding of a Python `str` as a list of characters. -/
abbrev PyStr := List Char

/-- Conversion from a Lean string literal to the `PyStr` embedding. -/
def pys (s : String) : PyStr := s.data

/-- The character `'` (codepoint 39), written via `Char.ofNat`. -/
def quoteChar : Char := Char.ofNat 39

/-- The character `\` (codepoint 92), written via `Char.ofNat`. -/
def backslashChar : Char := Char.ofNat 92

/-- Python `str.isspace`-style whitespace test used by `str.split()`:
space, tab, newline, carriage return, vertical tab, form feed. -/
def pyIsSpace (c : Char) : Bool :=
  c = ' ' || c = Char.ofNat 9 || c = Char.ofNat 10 || c = Char.ofNat 13 ||
    c = Char.ofNat 11 || c = Char.ofNat 12

/-- Python `s.split(', ')`: split on every non-overlapping occurrence of
the two-character separator `", "`, scanning left to right and keeping
empty parts. -/
def splitCS : PyStr → List PyStr
  | [] => [[]]
  | [c] => [[c]]
  | c :: d :: rest =>
    if c = ',' ∧ d = ' ' then [] :: splitCS rest
    else
      match splitCS (d :: rest) with
      | [] => [[c]]
      | h :: t => (c :: h) :: t

/-- Worker for Python `s.split()` (whitespace split, dropping empty
tokens): `cur` is the reversed current token. -/
def wsGo : PyStr → PyStr → List PyStr
  | cur, [] => if cur = [] then [] else [cur.reverse]
  | cur, c :: rest =>
    if pyIsSpace c then
      if cur = [] then wsGo [] rest else cur.reverse :: wsGo [] rest
    else wsGo (c :: cur) rest

/-- Python `s.split()`: maximal runs of non-whitespace characters. -/
def wsSplit (s : PyStr) : List PyStr := wsGo [] s

/-- Strip all trailing Python whitespace from a string. -/
def rstripWS (s : PyStr) : PyStr := (s.reverse.dropWhile pyIsSpace).reverse

/-- Embedding of `findall(r'(.*?)\s*\(', entity)` followed by
`before[0] if len(before) > 0 else entity` (`utils.py`, used by every
`standardize_*` method): on a newline-free string, the first capture of
the regex is the text before the first `(`, with the whitespace run
immediately preceding that `(` stripped; if there is no `(` the string
is left unchanged. -/
def stripParen (s : PyStr) : PyStr :=
  if '(' ∈ s then rstripWS (s.takeWhile (fun c => c ≠ '(')) else s

/-- `BaseClass.standardize_location` (utils.py:229-245): forget what is
inside the parenthesis. -/
def standardize_location (s : PyStr) : PyStr := stripParen s

/-- `BaseClass.standardize_organization` (utils.py:272-288): forget what
is inside the parenthesis. -/
def standardize_organization (s : PyStr) : PyStr := stripParen s

/-- `BaseClass.standardize_person` (utils.py:247-270): strip the
parenthetical part; if splitting on `", "` gives exactly two parts,
invert them with a space; if the whitespace-split of the result has
exactly three tokens, keep only the first and the last. -/
def standardize_person (s : PyStr) : PyStr :=
  let e1 := stripParen s
  let e2 :=
    match splitCS e1 with
    | [p0, p1] => p1 ++ ' ' :: p0
    | _ => e1
  match wsSplit e2 with
  | [t0, _, t2] => t0 ++ ' ' :: t2
  | _ => e2

/-- `BaseClass.standardize` (utils.py:290-313): the set of all
standardizations of a raw entity string: the string itself, the
location, person and organization standardizations, and — when the
person standardization has exactly two whitespace tokens — the second
token (the surname) alone. -/
def standardize (s : PyStr) : Finset PyStr :=
  let base : Finset PyStr := {s}
  let base := insert (standardize_location s) base
  let sper := standardize_person s
  let base := insert sper base
  let base :=
    match wsSplit sper with
    | [_, t1] => insert t1 base
    | _ => base
  insert (standardize_organization s) base

/-- `BaseClass.match` (utils.py:344-357): two entity strings match iff
their standardization sets intersect. -/
def pyMatch (a b : PyStr) : Prop := ((standardize a) ∩ (standardize b)).Nonempty

instance (a b : PyStr) : Decidable (pyMatch a b) := by
  unfold pyMatch; exact Finset.decidableNonempty


/-! ## Subtuple generation (`BaseClass.subtuples`, utils.py:319-342;
`Database.subtuples`, database.py:1059-1082, is textually the same
function). The Python function takes an iterable of comparable elements
(entity-name strings in the pipeline); the embedding is generic over a
linear order, with the recursion on the cardinality made structural via
a fuel argument equal to the cardinality. -/

variable {α : Type*}

/-- Python `sorted` on the elements of a multiset, embedded as an
insertion sort lifted to the quotient (any two representative lists
sort to the same sorted list). -/
def msort [LinearOrder α] (s : Multiset α) : List α :=
  Quot.liftOn s (fun l => l.insertionSort (· ≤ ·)) (fun l₁ l₂ h => by
    exact List.eq_of_perm_of_sorted (r := (· ≤ ·))
      (((List.perm_insertionSort _ l₁).trans h).trans (List.perm_insertionSort _ l₂).symm)
      (List.sorted_insertionSort _ l₁) (List.sorted_insertionSort _ l₂))

/-- Python `sorted` on the elements of a finite set. -/
def finsort [LinearOrder α] (s : Finset α) : List α := msort s.val

/-- Fuel-indexed worker for `subtuples`: with fuel at least the
cardinality of the set it computes the source recursion
`{sorted l} ∪ ⋃ x ∈ l, subtuples (l minus x)` of the general branch. -/
def subtuplesGo [LinearOrder α] : Nat → Finset α → Finset (List α)
  | 0, _ => ∅
  | fuel + 1, s =>
    if s.card < 2 then ∅
    else if s.card = 2 ∨ s.card > 10 then {finsort s}
    else insert (finsort s) (s.biUnion fun x => subtuplesGo fuel (s.erase x))

/-- `subtuples(l)`: all sorted subtuples of length > 1 of `l`, with the
source's special cases (size < 2 gives the empty set; size 2 or size
above 10 gives only the full sorted tuple; otherwise the full sorted
tuple together with the subtuples of every one-element-removed subset). -/
def subtuples [LinearOrder α] (s : Finset α) : Finset (List α) :=
  subtuplesGo s.card s


/-! ## Entities, coreferences and the neighbouring-sentences window
search (`Article.contexts_neigh_sent`, article.py:260-318). -/

/-- Entity type tag (`location`, `person`, `org`/`organization`). -/
inductive EType where
  | location : EType
  | person : EType
  | organization : EType
deriving DecidableEq, Repr

/-- Modelled from the spec: the `Entity` class is imported by the
analysed modules but not part of the analysed tree. Per the spec's data
model an entity is a raw name with a type fixed at first sight, plus
the set of merged alias forms. -/
structure Entity where
  name : PyStr
  type_ : EType
  aliases : Finset PyStr := ∅
deriving DecidableEq

instance : Inhabited Entity := ⟨⟨[], EType.person, ∅⟩⟩

/-- Modelled from the spec: the `Coreference` class is imported but not
part of the analysed tree. A coreference chain carries the name of the
entity it resolved to (if any) and the set of sentence indices its
mentions touch. -/
structure Coreference where
  entity : Option PyStr
  sentences : Finset Nat
deriving DecidableEq

/-- Modelled from the spec: `Entity.match` resolves a raw string against
the entity via the standardization intersection (`BaseClass.match`). -/
def Entity.matches (e : Entity) (n : PyStr) : Prop := pyMatch e.name n

instance (e : Entity) (n : PyStr) : Decidable (e.matches n) := by
  unfold Entity.matches; infer_instance

/-- `Article.get_entity_sentences` (article.py:203-220): the set of
sentence indices carrying a mention of the entity, collected over the
coreference chains whose resolved entity matches it. -/
def get_entity_sentences (corefs : List Coreference) (e : Entity) : Finset Nat :=
  corefs.foldl
    (fun acc c =>
      match c.entity with
      | some n => if e.matches n then acc ∪ c.sentences else acc
      | none => acc)
    ∅

/-- The per-sentence mention map `sentences_entities` of
`contexts_neigh_sent` (article.py:272-276), read extensionally: the set
of tuple-entity positions mentioned in sentence `idx`. -/
def mentionsAt (tup : List Entity) (corefs : List Coreference) (idx : Nat) : Finset Nat :=
  (Finset.range tup.length).filter
    (fun i => idx ∈ get_entity_sentences corefs (tup.getD i default))

/-- The key set of the `sentences_entities` defaultdict: the sentences
mentioning at least one tuple entity. -/
def mentionedKeys (tup : List Entity) (corefs : List Coreference) : Finset Nat :=
  tup.foldl (fun acc e => acc ∪ get_entity_sentences corefs e) ∅

/-- The window walk of `contexts_neigh_sent` (article.py:280-296) from a
fixed start `idx`: process the offsets in order; at each present
sentence remove its mentioned positions from `unseens`, record the
sentence in `seers` when it contributed a new position, and succeed
with `seers` as soon as `unseens` is empty. -/
def scanGo (se : Nat → Finset Nat) (idx : Nat) :
    List Nat → List Nat → Finset Nat → Option (Finset Nat)
  | [], _, _ => none
  | i :: rest, unseens, seers =>
    let P := se (idx + i)
    if P.Nonempty then
      let newUnseens := unseens.filter (fun j => j ∉ P)
      let newSeers :=
        if unseens.any (fun j => decide (j ∈ P)) then insert (idx + i) seers else seers
      if newUnseens = [] then some newSeers else scanGo se idx rest newUnseens newSeers
    else scanGo se idx rest unseens seers

/-- One start of the covering-window search: offsets `0, …, m-1` and the
initial `unseens = list(range(m))` of article.py:281. -/
def scanFrom (se : Nat → Finset Nat) (m idx : Nat) : Option (Finset Nat) :=
  scanGo se idx (List.range m) (List.range m) ∅

/-- `tuple(range(seers[0], seers[-1] + 1))` (article.py:294-295): the
contiguous span between the first and last seer. -/
def spanOf (S : Finset Nat) : List Nat :=
  match finsort S with
  | [] => []
  | a :: rest => List.range' a (rest.getLastD a + 1 - a)

/-- The set `contexts_sentences` of `contexts_neigh_sent`
(article.py:278-296): the candidate spans collected over every starting
sentence that mentions a tuple entity. -/
def contextsSpans (tup : List Entity) (corefs : List Coreference) : Finset (List Nat) :=
  (mentionedKeys tup corefs).biUnion fun idx =>
    match scanFrom (mentionsAt tup corefs) tup.length idx with
    | some S => {spanOf S}
    | none => ∅

/-- Decimal representation of a natural number as a `PyStr` (Python
`str(n)`). -/
def natToPyStr (n : Nat) : PyStr := (toString n).data

/-- The context identifier `str(idxs[0]) + '_' + str(idxs[-1])` of
article.py:314. -/
def spanId (sp : List Nat) : PyStr :=
  natToPyStr (sp.headD 0) ++ '_' :: natToPyStr (sp.getLastD 0)

/-- The two-entity tuple of the window-minimality scenario: entities
`A` and `B` of the same type. -/
def exTup : List Entity := [⟨pys "A", EType.person, ∅⟩, ⟨pys "B", EType.person, ∅⟩]

/-- Coreference chains of the scenario: `A` is mentioned in sentences
`{1, 4}` and `B` in sentence `{3}`. -/
def exCorefs : List Coreference :=
  [⟨some (pys "A"), {1, 4}⟩, ⟨some (pys "B"), {3}⟩]

/-! ## Context materialization with explicit heap
(article.py:301-318). Python object identity is modelled by an explicit
heap of `Sentence` objects addressed by naturals; `deepcopy` allocates a
fresh address holding a copy of the content. -/

/-- Modelled from the spec: the `Sentence` class is imported but not
part of the analysed tree; only its identity as a mutable object and
its content matter here, so it is modelled as an opaque text payload. -/
structure Sentence where
  text : PyStr
deriving DecidableEq

/-- A heap of `Sentence` objects addressed by naturals. -/
def Heap := Nat → Sentence

/-- The sentence table of an article: sentence index to heap address
(the dict `self.sentences` holds references to `Sentence` objects). -/
structure HArticle where
  sentRef : Nat → Nat

/-- The sentence snapshot held by one materialized `Context`:
sentence index paired with the heap address of its deep copy
(`{idx: deepcopy(self.sentences[idx]) for idx in idxs}`,
article.py:315). -/
structure CtxSnapshot where
  sentences : List (Nat × Nat)
deriving DecidableEq

/-- Materialize one span: allocate a fresh address for every sentence of
the span and copy the article's sentence content there (the `deepcopy`
calls of the dict comprehension). Returns the new heap, the next free
address, and the index-to-address association of the snapshot. -/
def allocSpan (art : HArticle) (h : Heap) (next : Nat) :
    List Nat → Heap × Nat × List (Nat × Nat)
  | [] => (h, next, [])
  | idx :: rest =>
    let h1 : Heap := fun r => if r = next then h (art.sentRef idx) else h r
    let res := allocSpan art h1 (next + 1) rest
    (res.1, res.2.1, (idx, next) :: res.2.2)

/-- Materialize all spans in order (the loop of article.py:301-316),
threading the heap. -/
def materializeContexts (art : HArticle) (h : Heap) (next : Nat) :
    List (List Nat) → Heap × Nat × List CtxSnapshot
  | [] => (h, next, [])
  | sp :: rest =>
    let res1 := allocSpan art h next sp
    let res2 := materializeContexts art res1.1 res1.2.1 rest
    (res2.1, res2.2.1, ⟨res1.2.2⟩ :: res2.2.2)

/-- Mutation of a heap cell (reassigning a `Sentence` object's content
in place). -/
def heapWrite (h : Heap) (r : Nat) (v : Sentence) : Heap :=
  fun r' => if r' = r then v else h r'

/-! ## Entity catalog (`Database.compute_entities`, database.py:327-365). -/

/-- The process-wide entity catalog: a dict from entity string form to
the registered `Entity`. -/
abbrev Catalog := List (PyStr × Entity)

/-- Dict lookup in the catalog. -/
def catFind (cat : Catalog) (n : PyStr) : Option Entity :=
  (cat.find? (fun p => p.1 = n)).map Prod.snd

/-- Dict update of an existing key in the catalog. -/
def catSet (cat : Catalog) (n : PyStr) (e : Entity) : Catalog :=
  cat.map (fun p => if p.1 = n then (n, e) else p)

/-- Modelled from the spec: `Entity.__str__` (the catalog key
`str(entity)`) is the entity's canonical name. -/
def entityStr (e : Entity) : PyStr := e.name

/-- Modelled from the spec: `Entity.update_info` merges a later sighting
into the registered entity — it adds the raw form as an alias — and
fails (the `AssertionError` caught at database.py:355) when the
sighting's type conflicts with the registered type. -/
def update_info (old new : Entity) : Except Unit Entity :=
  if old.type_ ≠ new.type_ then .error ()
  else .ok { old with aliases := insert new.name old.aliases }

/-- One iteration of the entity loop of `compute_entities`
(database.py:351-360): on a name hit, attempt the merge and ignore the
sighting when the merge fails; on a miss, register the new entity. -/
def registerEntity (cat : Catalog) (e : Entity) : Catalog :=
  match catFind cat (entityStr e) with
  | some old =>
    match update_info old e with
    | .ok merged => catSet cat (entityStr e) merged
    | .error _ => cat
  | none => cat ++ [(entityStr e, e)]

/-- `compute_entities` over the per-article entity lists: fold every
article's entities into the catalog, starting from the empty dict. -/
def computeEntities (articles : List (List Entity)) : Catalog :=
  articles.foldl (fun cat ents => ents.foldl registerEntity cat) []

/-! ## Tuples, the corpus filter (`Database.filter`, database.py:792-827,
with `clean_tuples`/`clean_articles`/`clean_entities`,
database.py:694-790) and the tuple ranking (`Database.compute_tuples`,
database.py:367-398). -/

/-- Modelled from the spec: the `Tuple` class is imported but not part
of the analysed tree. A tuple is a rank identifier, the sorted sequence
of shared entities, and its article and query support sets. -/
structure DBTuple where
  id_ : PyStr
  entities : List Entity
  article_ids : Finset PyStr
  query_ids : Finset PyStr
deriving DecidableEq

/-- Modelled from the spec: `Tuple.__str__` (the keep-set key
`str(tuple_)`) is the canonical sorted sequence of its entity names. -/
def tupleName (t : DBTuple) : List PyStr :=
  List.insertionSort (· ≤ ·) (t.entities.map Entity.name)

/-- The database state touched by `Database.filter`: the article-id
keys of `self.articles`, the name keys of `self.entities`, and
`self.tuples`. -/
structure DB where
  articles : Finset PyStr
  entities : Finset PyStr
  tuples : List DBTuple

/-- The keep-set accumulation loop of `Database.filter`
(database.py:816-820): for every tuple meeting the threshold, keep its
string form, its article ids and its entity names. -/
def filterKeepSets (tuples : List DBTuple) (threshold : Nat) :
    Finset (List PyStr) × Finset PyStr × Finset PyStr :=
  tuples.foldl
    (fun acc t =>
      if threshold ≤ t.article_ids.card then
        (insert (tupleName t) acc.1, acc.2.1 ∪ t.article_ids,
          acc.2.2 ∪ (t.entities.map Entity.name).toFinset)
      else acc)
    (∅, ∅, ∅)

/-- `Database.filter(min_articles=k)` (database.py:792-827): compute
the keep-sets from the tuples meeting the threshold, then
`clean_tuples(to_keep)`, `clean_articles(to_keep)` and
`clean_entities(to_keep)` retain exactly the members of the keep-sets. -/
def filterDB (db : DB) (min_articles : Nat) : DB :=
  let keep := filterKeepSets db.tuples min_articles
  { tuples := db.tuples.filter (fun t => tupleName t ∈ keep.1),
    articles := db.articles.filter (fun a => a ∈ keep.2.1),
    entities := db.entities.filter (fun n => n ∈ keep.2.2) }

/-! ## Tuple ranking (`Database.compute_tuples`, database.py:367-398). -/

/-- Python `repr` of a string (printable characters): choose double
quotes when the string contains a single quote but no double quote,
otherwise single quotes; escape the backslash, the chosen quote, tab,
newline and carriage return. -/
def pyReprStr (s : PyStr) : PyStr :=
  let q : Char := if quoteChar ∈ s ∧ Char.ofNat 34 ∉ s then Char.ofNat 34 else quoteChar
  let esc := s.foldr
    (fun c acc =>
      if c = backslashChar ∨ c = q then backslashChar :: c :: acc
      else if c = Char.ofNat 10 then backslashChar :: 'n' :: acc
      else if c = Char.ofNat 9 then backslashChar :: 't' :: acc
      else if c = Char.ofNat 13 then backslashChar :: 'r' :: acc
      else c :: acc)
    []
  q :: esc ++ [q]

/-- Python `str(k)` for a tuple `k` of strings — the canonical string
form used as the ranking tie-breaker (`str(k)` in the sort key of
database.py:391). -/
def pyReprTuple (ks : List PyStr) : PyStr :=
  '(' :: List.intercalate (',' :: [' ']) (ks.map pyReprStr) ++
    (if ks.length = 1 then [','] else []) ++ [')']

/-- Per-article, per-type entity-name sets (the `entities` defaultdict
of database.py:383-385). -/
def namesOfType (ents : List Entity) (τ : EType) : Finset PyStr :=
  ((ents.filter (fun e => e.type_ = τ)).map Entity.name).toFinset

/-- The subtuple keys contributed by one article: subtuples of each
present type's name set (database.py:387-389). -/
def articleSubtuples (ents : List Entity) : Finset (List PyStr) :=
  ((ents.map Entity.type_).toFinset).biUnion fun τ => subtuples (namesOfType ents τ)

/-- The key set of the `ids` defaultdict of `compute_tuples`. -/
def tupleKeys (articles : List (PyStr × List Entity)) : Finset (List PyStr) :=
  articles.foldl (fun acc p => acc ∪ articleSubtuples p.2) ∅

/-- The article-id support set of one key (`ids[tuple_]`), read
extensionally from the accumulation loop of database.py:380-389. -/
def idsOf (articles : List (PyStr × List Entity)) (key : List PyStr) : Finset PyStr :=
  articles.foldl (fun acc p => if key ∈ articleSubtuples p.2 then insert p.1 acc else acc) ∅

/-- The descending sort order of the ranking
(`sorted(ids, key=lambda k: (len(ids[k]), str(k)), reverse=True)`,
database.py:391): `a` precedes `b` iff the pair
`(len(ids[a]), str(a))` is at least `(len(ids[b]), str(b))`
lexicographically. -/
def rankRel (articles : List (PyStr × List Entity)) (a b : List PyStr) : Prop :=
  (idsOf articles b).card < (idsOf articles a).card ∨
    ((idsOf articles a).card = (idsOf articles b).card ∧ pyReprTuple b ≤ pyReprTuple a)

instance (articles : List (PyStr × List Entity)) : DecidableRel (rankRel articles) := by
  unfold rankRel; infer_instance

/-- The dict keys in a canonical iteration order. -/
def tupleKeysList (articles : List (PyStr × List Entity)) : List (List PyStr) :=
  finsort (tupleKeys articles)

/-- The ranking of `compute_tuples`: the keys sorted in descending
`(support count, canonical string form)` order. -/
def rankingOf (articles : List (PyStr × List Entity)) : List (List PyStr) :=
  List.insertionSort (rankRel articles) (tupleKeysList articles)

/-- `Database.compute_tuples` (database.py:367-398): the ranked keys are
turned into `Tuple` records, the element of rank `rank` (0-based)
receiving the identifier `str(rank + 1)`; entities are shared
references into the catalog (`self.entities[name]`). -/
def computeTuples (catalog : PyStr → Entity) (articles : List (PyStr × List Entity)) :
    List DBTuple :=
  (rankingOf articles).enum.map fun p =>
    { id_ := natToPyStr (p.1 + 1), entities := p.2.map catalog,
      article_ids := idsOf articles p.2, query_ids := ∅ }

/-! ## Query construction (`Database.compute_queries`,
database.py:487-515). -/

/-- Python `'_'.join(parts)`. -/
def underscoreJoin (parts : List PyStr) : PyStr := List.intercalate ['_'] parts

/-- Modelled from the spec: the `Query` class is imported but not part
of the analysed tree; a query packages its identifier with the
`(tuple, article, context)` triple it came from. The context payload
type is a parameter. -/
structure Query (χ : Type*) where
  id_ : PyStr
  tuple_ : DBTuple
  article_id : PyStr
  context_id : PyStr
  context : χ

/-- The query entry produced for one `(tuple, article, context)` triple
(database.py:507-511): the identifier is
`'_'.join([article_id_, tuple_.id_, context_id_])`. -/
def qEntry {χ : Type*} (t : DBTuple) (a : PyStr) (pc : PyStr × χ) : PyStr × Query χ :=
  (underscoreJoin [a, t.id_, pc.1],
   { id_ := underscoreJoin [a, t.id_, pc.1], tuple_ := t, article_id := a,
     context_id := pc.1, context := pc.2 })

/-- `Database.compute_queries` (database.py:487-515): for every tuple,
for every article id of the tuple in sorted order, for every context of
the article registered under the tuple's string form, emit one query
keyed by its identifier. `contexts a n` lists the context dict of
article `a` under tuple name `n` in iteration order. -/
def computeQueries {χ : Type*} (contexts : PyStr → List PyStr → List (PyStr × χ))
    (tuples : List DBTuple) : List (PyStr × Query χ) :=
  tuples.foldl
    (fun qs t =>
      (finsort t.article_ids).foldl
        (fun qs2 a =>
          (contexts a (tupleName t)).foldl (fun qs3 pc => qs3 ++ [qEntry t a pc]) qs2)
        qs)
    []

/-- A single name token: nonempty, and free of whitespace, commas and
parentheses. -/
def isToken (s : PyStr) : Prop :=
  s ≠ [] ∧ ∀ c ∈ s, pyIsSpace c = false ∧ c ≠ ',' ∧ c ≠ '('

instance (s : PyStr) : Decidable (isToken s) := by
  unfold isToken; infer_instance

/-- Example catalog with a registered location entity. -/
def exCat : Catalog := [(pys "Paris", ⟨pys "Paris", EType.location, ∅⟩)]

/-- A later sighting of the same name under a conflicting type. -/
def exConflict : Entity := ⟨pys "Paris", EType.person, ∅⟩

/-- A subsequent entity of the same batch. -/
def exLater : Entity := ⟨pys "Bob", EType.person, ∅⟩

/-- Example article table for the deep-copy witness: five sentences at
heap addresses `0`-`4`. -/
def exHArt : HArticle := ⟨fun i => i % 5⟩

/-- Example heap for the deep-copy witness. -/
def exHeap : Heap := fun _ => ⟨pys "s"⟩

/-- Example tuple with two supporting articles. -/
def exT1 : DBTuple :=
  ⟨pys "1", [⟨pys "X", EType.person, ∅⟩, ⟨pys "Y", EType.person, ∅⟩],
    {pys "a1", pys "a2"}, ∅⟩

/-- Example tuple with a single supporting article (filtered out at
threshold 2). -/
def exT2 : DBTuple :=
  ⟨pys "2", [⟨pys "X", EType.person, ∅⟩, ⟨pys "Z", EType.person, ∅⟩],
    {pys "a3"}, ∅⟩

/-- Example database state for the filter witness. -/
def exDB : DB :=
  { articles := {pys "a1", pys "a2", pys "a3"},
    entities := {pys "X", pys "Y", pys "Z"},
    tuples := [exT1, exT2] }

/-- Catalog stub for the ranking witness: every name maps to a
person-typed entity of that name. -/
def exCatalog : PyStr → Entity := fun n => ⟨n, EType.person, ∅⟩

/-- One-article corpus for the ranking witness. -/
def exArticles : List (PyStr × List Entity) :=
  [(pys "9", [⟨pys "B", EType.person, ∅⟩, ⟨pys "A", EType.person, ∅⟩])]

/-- Tuple for the query-identifier witness, attested in two articles. -/
def exQTuple : DBTuple :=
  ⟨pys "1", [⟨pys "A", EType.person, ∅⟩], {pys "7", pys "8"}, ∅⟩

/-- Context table for the query-identifier witness: one context `"0"`
everywhere. -/
def exContexts : PyStr → List PyStr → List (PyStr × Unit) := fun _ _ => [(pys "0", ())]


/-! ## Claim theorems. -/

/-- C1 counterexample: with entity `A` mentioned in sentences `{1, 4}`
and `B` in sentence `{3}`, the covering-window search of
`contexts_neigh_sent` never produces the window `(1, 3)` (the span
`[1, 2, 3]`): the walk from each start inspects only `m = 2`
consecutive sentences, so start 1 fails before reaching sentence 3. -/
theorem contexts_neigh_sent_window_1_3_not_produced :
    [1, 2, 3] ∉ contextsSpans exTup exCorefs := by decide

/-- C1 amended: with `A` mentioned in `{1, 4}` and `B` in `{3}`, the
covering-window search grows a window of at most `m = 2` consecutive
sentences from every mentioning start; start 1 fails to cover `B`, and
the unique produced covering window is `(3, 4)`, found from start 3. -/
theorem contexts_neigh_sent_window_example :
    contextsSpans exTup exCorefs = {[3, 4]} := by decide

/-- C2 counterexample: for the 3-element set `{"a", "b", "c"}`,
`subtuples` contains the size-3 sorted tuple itself, contrary to the
claim that only the three size-2 subsets are returned. -/
theorem subtuples_three_contains_full :
    [pys "a", pys "b", pys "c"] ∈ subtuples ({pys "a", pys "b", pys "c"} : Finset PyStr) := by
  decide

theorem sorted_finsort [LinearOrder α] (s : Finset α) : List.Sorted (· ≤ ·) (finsort s) := by
  rcases s with ⟨v, hv⟩
  induction v using Quot.inductionOn
  exact List.sorted_insertionSort _ _

theorem mem_finsort [LinearOrder α] {s : Finset α} {a : α} : a ∈ finsort s ↔ a ∈ s := by
  rcases s with ⟨v, hv⟩
  induction v using Quot.inductionOn
  exact (List.perm_insertionSort _ _).mem_iff

theorem coe_finsort [LinearOrder α] (s : Finset α) : (finsort s : Multiset α) = s.val := by
  rcases s with ⟨v, hv⟩
  induction v using Quot.inductionOn
  exact Multiset.coe_eq_coe.mpr (List.perm_insertionSort _ _)

theorem finsort_nodup [LinearOrder α] (s : Finset α) : (finsort s).Nodup := by
  have h := coe_finsort s
  have := s.nodup
  rw [← h] at this
  exact Multiset.coe_nodup.mp this

/-- A sorted duplicate-free list with the same members as `s` is exactly
`finsort s`. -/
theorem finsort_eq_of [LinearOrder α] {s : Finset α} {l : List α} (hn : l.Nodup)
    (hs : List.Sorted (· ≤ ·) l) (hm : ∀ a, a ∈ l ↔ a ∈ s) : finsort s = l := by
  have hval : (↑l : Multiset α) = s.val := by
    have hfs : l.toFinset = s := by
      ext a; simp [List.mem_toFinset, hm a]
    have hversion := congrArg Finset.val hfs
    have hded : (l.toFinset).val = (↑l : Multiset α) := by
      simp [List.toFinset, Multiset.toFinset, Multiset.dedup_eq_self.mpr (Multiset.coe_nodup.mpr hn)]
    rw [hded] at hversion
    exact hversion
  have hperm : (finsort s).Perm l := by
    apply Multiset.coe_eq_coe.mp
    rw [coe_finsort, hval]
  exact List.eq_of_perm_of_sorted (r := (· ≤ ·)) hperm (sorted_finsort s) hs

theorem finsort_pair [LinearOrder α] {a b : α} (hab : a < b) :
    finsort ({a, b} : Finset α) = [a, b] := by
  apply finsort_eq_of
  · simp [hab.ne]
  · simp [hab.le]
  · intro x; simp

theorem finsort_triple [LinearOrder α] {a b c : α} (hab : a < b) (hbc : b < c) :
    finsort ({a, b, c} : Finset α) = [a, b, c] := by
  apply finsort_eq_of
  · simp [hab.ne, (hab.trans hbc).ne, hbc.ne]
  · simp [List.sorted_cons, hab.le, (hab.trans hbc).le, hbc.le]
  · intro x; simp

theorem card_pair_of_ne [DecidableEq α] {a b : α} (h : a ≠ b) :
    ({a, b} : Finset α).card = 2 := by
  rw [Finset.card_insert_of_not_mem (by simp [h])]
  simp

/-- C2 amended: for every 2-element set the result is exactly the
sorted pair; for every 3-element set the result is the three sorted
size-2 subsets TOGETHER WITH the sorted size-3 tuple itself (the
general branch of `subtuples` starts from the full sorted tuple). -/
theorem subtuples_small_sets [LinearOrder α] (a b c : α) (hab : a < b) (hbc : b < c) :
    subtuples ({a, b} : Finset α) = {[a, b]} ∧
      subtuples ({a, b, c} : Finset α) = {[a, b, c], [a, b], [a, c], [b, c]} := by
  have hac : a < c := hab.trans hbc
  have hpair : ∀ x y : α, x < y → subtuples ({x, y} : Finset α) = {[x, y]} := by
    intro x y hxy
    unfold subtuples
    rw [card_pair_of_ne hxy.ne]
    simp [subtuplesGo, card_pair_of_ne hxy.ne, finsort_pair hxy]
  refine ⟨hpair a b hab, ?_⟩
  have cardT : ({a, b, c} : Finset α).card = 3 := by
    rw [Finset.card_insert_of_not_mem (by simp [hab.ne, hac.ne]), card_pair_of_ne hbc.ne]
  have e1 : ({a, b, c} : Finset α).erase a = {b, c} :=
    Finset.erase_insert (by simp [hab.ne, hac.ne])
  have e2 : ({a, b, c} : Finset α).erase b = {a, c} := by
    rw [show ({a, b, c} : Finset α) = insert a {b, c} from rfl,
      Finset.erase_insert_of_ne hab.ne, Finset.erase_insert (by simp [hbc.ne])]
  have e3 : ({a, b, c} : Finset α).erase c = {a, b} := by
    rw [show ({a, b, c} : Finset α) = insert a {b, c} from rfl,
      Finset.erase_insert_of_ne hac.ne,
      show ({b, c} : Finset α) = insert b {c} from rfl,
      Finset.erase_insert_of_ne hbc.ne, Finset.erase_singleton]
    simp
  have goPair : ∀ x y : α, x < y → subtuplesGo 2 ({x, y} : Finset α) = {[x, y]} := by
    intro x y hxy
    simp [subtuplesGo, card_pair_of_ne hxy.ne, finsort_pair hxy]
  unfold subtuples
  rw [cardT]
  show subtuplesGo 3 ({a, b, c} : Finset α) = _
  rw [show (3 : Nat) = 2 + 1 from rfl]
  rw [subtuplesGo]
  rw [if_neg (by rw [cardT]; omega), if_neg (by rw [cardT]; omega)]
  rw [show ({a, b, c} : Finset α) = insert a (insert b {c}) from rfl]
  rw [Finset.biUnion_insert, Finset.biUnion_insert, Finset.singleton_biUnion]
  rw [show insert a (insert b {c}) = ({a, b, c} : Finset α) from rfl]
  rw [e1, e2, e3, goPair b c hbc, goPair a c hac, goPair a b hab, finsort_triple hab hbc]
  ext x
  simp only [Finset.mem_insert, Finset.mem_union, Finset.mem_singleton]
  tauto

/-- C2 witness: the amended theorem evaluated on the concrete sets
`{1, 2}` and `{1, 2, 3}`. -/
theorem subtuples_small_sets_witness :
    ((1 : Nat) < 2 ∧ (2 : Nat) < 3) ∧ subtuples ({1, 2} : Finset Nat) = {[1, 2]} ∧
      subtuples ({1, 2, 3} : Finset Nat) = {[1, 2, 3], [1, 2], [1, 3], [2, 3]} :=
  ⟨⟨by decide, by decide⟩, (subtuples_small_sets 1 2 3 (by decide) (by decide)).1,
    (subtuples_small_sets 1 2 3 (by decide) (by decide)).2⟩

theorem getLastD_mem_cons : ∀ (rest : List Nat) (a : Nat), rest.getLastD a ∈ a :: rest := by
  intro rest
  induction rest with
  | nil => intro a; simp
  | cons x xs ih =>
    intro a
    rw [List.getLastD_cons]
    have h := ih x
    simp only [List.mem_cons] at h ⊢
    tauto

theorem scanGo_some_subset (se : Nat → Finset Nat) (idx : Nat) :
    ∀ (offs unseens : List Nat) (seers S : Finset Nat),
      scanGo se idx offs unseens seers = some S →
      S ⊆ seers ∪ (offs.map (idx + ·)).toFinset := by
  intro offs
  induction offs with
  | nil => intro unseens seers S h; simp [scanGo] at h
  | cons i rest ih =>
    intro unseens seers S h
    simp only [scanGo] at h
    by_cases hP : (se (idx + i)).Nonempty
    · rw [if_pos hP] at h
      by_cases hE : unseens.filter (fun j => j ∉ se (idx + i)) = []
      · rw [if_pos hE] at h
        have hS : S = if unseens.any (fun j => decide (j ∈ se (idx + i))) then
            insert (idx + i) seers else seers := (Option.some.injEq _ _).mp h.symm
        intro x hx
        rw [hS] at hx
        simp only [List.map_cons, List.toFinset_cons, Finset.mem_union, Finset.mem_insert]
        split at hx
        · rcases Finset.mem_insert.mp hx with h1 | h1
          · right; left; exact h1
          · left; exact h1
        · left; exact hx
      · rw [if_neg hE] at h
        have := ih _ _ _ h
        intro x hx
        have hx2 := this hx
        simp only [Finset.mem_union, Finset.mem_insert] at hx2 ⊢
        simp only [List.map_cons, List.toFinset_cons, Finset.mem_insert]
        split at hx2
        · rcases hx2 with h1 | h1
          · rcases Finset.mem_insert.mp h1 with h2 | h2
            · right; left; exact h2
            · left; exact h2
          · right; right; exact h1
        · rcases hx2 with h1 | h1
          · left; exact h1
          · right; right; exact h1
    · rw [if_neg hP] at h
      have := ih _ _ _ h
      intro x hx
      have hx2 := this hx
      simp only [Finset.mem_union, List.map_cons, List.toFinset_cons, Finset.mem_insert] at hx2 ⊢
      tauto

theorem scanGo_some_nonempty (se : Nat → Finset Nat) (idx : Nat) :
    ∀ (offs unseens : List Nat) (seers S : Finset Nat), unseens ≠ [] →
      scanGo se idx offs unseens seers = some S → S.Nonempty := by
  intro offs
  induction offs with
  | nil => intro unseens seers S _ h; simp [scanGo] at h
  | cons i rest ih =>
    intro unseens seers S hne h
    simp only [scanGo] at h
    by_cases hP : (se (idx + i)).Nonempty
    · rw [if_pos hP] at h
      by_cases hE : unseens.filter (fun j => j ∉ se (idx + i)) = []
      · rw [if_pos hE] at h
        have hall : ∀ j ∈ unseens, j ∈ se (idx + i) := by
          intro j hj
          by_contra hmem
          have : j ∈ unseens.filter (fun j => j ∉ se (idx + i)) :=
            List.mem_filter.mpr ⟨hj, by simpa using hmem⟩
          rw [hE] at this
          exact absurd this (List.not_mem_nil j)
        obtain ⟨j, hj⟩ := List.exists_mem_of_ne_nil unseens hne
        have hany : unseens.any (fun j => decide (j ∈ se (idx + i))) = true := by
          rw [List.any_eq_true]
          exact ⟨j, hj, by simpa using hall j hj⟩
        rw [if_pos hany] at h
        have hS : S = insert (idx + i) seers := (Option.some.injEq _ _).mp h.symm
        rw [hS]
        exact Finset.insert_nonempty _ _
      · rw [if_neg hE] at h
        exact ih _ _ _ hE h
    · rw [if_neg hP] at h
      exact ih _ _ _ hne h

theorem scanGo_some_cov (se : Nat → Finset Nat) (idx : Nat) :
    ∀ (offs unseens : List Nat) (seers S : Finset Nat),
      scanGo se idx offs unseens seers = some S →
      ∀ p ∈ unseens, ∃ i ∈ offs, p ∈ se (idx + i) := by
  intro offs
  induction offs with
  | nil => intro unseens seers S h; simp [scanGo] at h
  | cons i rest ih =>
    intro unseens seers S h p hp
    simp only [scanGo] at h
    by_cases hP : (se (idx + i)).Nonempty
    · rw [if_pos hP] at h
      by_cases hE : unseens.filter (fun j => j ∉ se (idx + i)) = []
      · rw [if_pos hE] at h
        refine ⟨i, List.mem_cons_self i rest, ?_⟩
        by_contra hmem
        have : p ∈ unseens.filter (fun j => j ∉ se (idx + i)) :=
          List.mem_filter.mpr ⟨hp, by simpa using hmem⟩
        rw [hE] at this
        exact absurd this (List.not_mem_nil p)
      · rw [if_neg hE] at h
        by_cases hmem : p ∈ se (idx + i)
        · exact ⟨i, List.mem_cons_self i rest, hmem⟩
        · have hp2 : p ∈ unseens.filter (fun j => j ∉ se (idx + i)) :=
            List.mem_filter.mpr ⟨hp, by simpa using hmem⟩
          obtain ⟨i', hi', hpi'⟩ := ih _ _ _ h p hp2
          exact ⟨i', List.mem_cons_of_mem i hi', hpi'⟩
    · rw [if_neg hP] at h
      obtain ⟨i', hi', hpi'⟩ := ih _ _ _ h p hp
      exact ⟨i', List.mem_cons_of_mem i hi', hpi'⟩

theorem spanOf_bounds {S : Finset Nat} {lo n : Nat} (hne : S.Nonempty)
    (hb : ∀ x ∈ S, lo ≤ x ∧ x < lo + n) :
    (spanOf S).length ≤ n ∧ ∀ x ∈ spanOf S, lo ≤ x ∧ x < lo + n := by
  obtain ⟨y, hy⟩ := hne
  have hyl : y ∈ finsort S := mem_finsort.mpr hy
  unfold spanOf
  rcases hl : finsort S with _ | ⟨a, rest⟩
  · rw [hl] at hyl
    exact absurd hyl (List.not_mem_nil y)
  · have ha : a ∈ S := mem_finsort.mp (by rw [hl]; exact List.mem_cons_self a rest)
    have hlast : rest.getLastD a ∈ S := by
      apply mem_finsort.mp
      rw [hl]
      exact getLastD_mem_cons rest a
    have haB := hb a ha
    have hlB := hb _ hlast
    constructor
    · rw [List.length_range']
      omega
    · intro x hx
      rw [List.mem_range'_1] at hx
      omega

theorem mem_mentionsAt {tup : List Entity} {corefs : List Coreference} {i idx : Nat} :
    i ∈ mentionsAt tup corefs idx ↔
      i < tup.length ∧ idx ∈ get_entity_sentences corefs (tup.getD i default) := by
  simp [mentionsAt, Finset.mem_filter, Finset.mem_range]

/-- C9: the window walk of `contexts_neigh_sent` inspects, from each
start, only the `m = len(tuple_.entities)` consecutive sentences, so
every emitted window context spans at most `m` sentences (and fits in
an interval of `m` consecutive indices), and if any window context is
emitted at all then all `m` entities are mentioned within some `m`
consecutive sentences. -/
theorem contexts_neigh_sent_window_limit (tup : List Entity) (corefs : List Coreference) :
    (∀ sp ∈ contextsSpans tup corefs,
        sp.length ≤ tup.length ∧ ∃ a, ∀ x ∈ sp, a ≤ x ∧ x < a + tup.length) ∧
      ((contextsSpans tup corefs).Nonempty →
        ∃ a, ∀ i < tup.length, ∃ k < tup.length,
          a + k ∈ get_entity_sentences corefs (tup.getD i default)) := by
  have key : ∀ sp ∈ contextsSpans tup corefs, ∃ idx S,
      scanFrom (mentionsAt tup corefs) tup.length idx = some S ∧ sp = spanOf S := by
    intro sp hsp
    obtain ⟨idx, _, hsp2⟩ := Finset.mem_biUnion.mp hsp
    rcases hscan : scanFrom (mentionsAt tup corefs) tup.length idx with _ | S
    · rw [hscan] at hsp2
      exact absurd hsp2 (Finset.not_mem_empty sp)
    · rw [hscan] at hsp2
      exact ⟨idx, S, hscan, Finset.mem_singleton.mp hsp2⟩
  have hmpos : ∀ idx S, scanFrom (mentionsAt tup corefs) tup.length idx = some S →
      tup.length ≠ 0 := by
    intro idx S hscan h0
    rw [scanFrom, h0] at hscan
    simp [scanGo] at hscan
  constructor
  · intro sp hsp
    obtain ⟨idx, S, hscan, hspan⟩ := key sp hsp
    have hm := hmpos idx S hscan
    have hsub := scanGo_some_subset _ idx _ _ _ _ hscan
    have hSne : S.Nonempty := by
      apply scanGo_some_nonempty _ idx _ _ _ _ _ hscan
      intro hnil
      rw [List.range_eq_nil] at hnil
      exact hm hnil
    have hb : ∀ x ∈ S, idx ≤ x ∧ x < idx + tup.length := by
      intro x hx
      have := hsub hx
      simp only [Finset.empty_union, List.mem_toFinset, List.mem_map, List.mem_range] at this
      obtain ⟨i, hi, hxi⟩ := this
      omega
    rw [hspan]
    exact ⟨(spanOf_bounds hSne hb).1, idx, (spanOf_bounds hSne hb).2⟩
  · intro hne
    obtain ⟨sp, hsp⟩ := hne
    obtain ⟨idx, S, hscan, _⟩ := key sp hsp
    refine ⟨idx, ?_⟩
    intro i hi
    have hcov := scanGo_some_cov _ idx _ _ _ _ hscan i (List.mem_range.mpr hi)
    obtain ⟨k, hk, hik⟩ := hcov
    rw [List.mem_range] at hk
    rw [mem_mentionsAt] at hik
    exact ⟨k, hk, hik.2⟩

/-- C9 witness: the window-limit theorem evaluated on the concrete
two-entity scenario. -/
theorem contexts_neigh_sent_window_limit_witness :
    (([3, 4] : List Nat).length ≤ exTup.length ∧
        ∃ a, ∀ x ∈ ([3, 4] : List Nat), a ≤ x ∧ x < a + exTup.length) ∧
      ∃ a, ∀ i < exTup.length, ∃ k < exTup.length,
        a + k ∈ get_entity_sentences exCorefs (exTup.getD i default) :=
  ⟨(contexts_neigh_sent_window_limit exTup exCorefs).1 [3, 4] (by decide),
    (contexts_neigh_sent_window_limit exTup exCorefs).2 ⟨[3, 4], by decide⟩⟩

theorem splitCS_no_space {s : PyStr} (h : ' ' ∉ s) : splitCS s = [s] := by
  induction s with
  | nil => rfl
  | cons c rest ih =>
    rcases rest with _ | ⟨d, rest'⟩
    · rfl
    · have hd : d ≠ ' ' := by
        intro hds
        exact h (by rw [hds]; exact List.mem_cons_of_mem c (List.mem_cons_self ' ' rest'))
      have hrest : ' ' ∉ d :: rest' := fun hmem => h (List.mem_cons_of_mem c hmem)
      rw [splitCS, if_neg (by intro hcd; exact hd hcd.2), ih hrest]

theorem splitCS_append {L F : PyStr} (hL : ',' ∉ L) :
    splitCS (L ++ ',' :: ' ' :: F) = L :: splitCS F := by
  induction L with
  | nil => rw [List.nil_append, splitCS, if_pos ⟨rfl, rfl⟩]
  | cons x L' ih =>
    have hx : x ≠ ',' := fun hxc => hL (by rw [hxc]; exact List.mem_cons_self ',' L')
    have hL' : ',' ∉ L' := fun hmem => hL (List.mem_cons_of_mem x hmem)
    rcases L' with _ | ⟨y, L''⟩
    · show splitCS (x :: ',' :: ' ' :: F) = [x] :: splitCS F
      rw [splitCS, if_neg (by intro hcd; exact hx hcd.1)]
      rw [show splitCS (',' :: ' ' :: F) = [] :: splitCS F by
        rw [splitCS, if_pos ⟨rfl, rfl⟩]]
    · show splitCS (x :: y :: (L'' ++ ',' :: ' ' :: F)) = (x :: y :: L'') :: splitCS F
      rw [splitCS, if_neg (by intro hcd; exact hx hcd.1)]
      have ihy := ih hL'
      rw [show (y :: L'') ++ ',' :: ' ' :: F = y :: (L'' ++ ',' :: ' ' :: F) from rfl] at ihy
      rw [ihy]

theorem wsGo_no_space : ∀ (s cur : PyStr), (∀ c ∈ s, pyIsSpace c = false) →
    wsGo cur s = if cur.reverse ++ s = [] then [] else [cur.reverse ++ s] := by
  intro s
  induction s with
  | nil =>
    intro cur _
    rw [wsGo]
    rcases cur with _ | ⟨c, cur'⟩
    · rfl
    · simp
  | cons c rest ih =>
    intro cur h
    rw [wsGo, if_neg (by simp [h c (List.mem_cons_self c rest)])]
    rw [ih (c :: cur) (fun x hx => h x (List.mem_cons_of_mem c hx))]
    have h1 : (c :: cur).reverse ++ rest = cur.reverse ++ c :: rest := by simp
    rw [h1]

theorem wsGo_two_tokens : ∀ (a cur b : PyStr), (∀ c ∈ a, pyIsSpace c = false) →
    (∀ c ∈ b, pyIsSpace c = false) → b ≠ [] →
    wsGo cur (a ++ ' ' :: b) =
      if cur.reverse ++ a = [] then [b] else [cur.reverse ++ a, b] := by
  intro a
  induction a with
  | nil =>
    intro cur b _ hb hbne
    rw [List.nil_append, wsGo, if_pos (by decide)]
    have hwb : wsGo [] b = [b] := by
      rw [wsGo_no_space b [] hb]
      simp [hbne]
    rcases cur with _ | ⟨c, cur'⟩
    · simp [hwb]
    · simp [hwb]
  | cons c a' ih =>
    intro cur b h hb hbne
    rw [show (c :: a') ++ ' ' :: b = c :: (a' ++ ' ' :: b) from rfl]
    rw [wsGo, if_neg (by simp [h c (List.mem_cons_self c a')])]
    rw [ih (c :: cur) b (fun x hx => h x (List.mem_cons_of_mem c hx)) hb hbne]
    have h1 : (c :: cur).reverse ++ a' = cur.reverse ++ c :: a' := by simp
    rw [h1]

theorem wsSplit_single_token {b : PyStr} (hb : ∀ c ∈ b, pyIsSpace c = false) (hne : b ≠ []) :
    wsSplit b = [b] := by
  rw [wsSplit, wsGo_no_space b [] hb]
  simp [hne]

theorem wsSplit_two_tokens {a b : PyStr} (ha : ∀ c ∈ a, pyIsSpace c = false)
    (hb : ∀ c ∈ b, pyIsSpace c = false) (hane : a ≠ []) (hbne : b ≠ []) :
    wsSplit (a ++ ' ' :: b) = [a, b] := by
  rw [wsSplit, wsGo_two_tokens a [] b ha hb hbne]
  simp [hane]

theorem stripParen_no_paren {s : PyStr} (h : '(' ∉ s) : stripParen s = s :=
  if_neg h

/-- C6: person-name standardization: (1) `"Last, First"` with single
name tokens and no parenthetical part is inverted to `"First Last"`;
(2) when the inverted result has exactly three whitespace tokens the
middle token is dropped; (3) when the person form has exactly two
whitespace tokens, `standardize` additionally contains the second token
(the surname) alone; (4) every input string is a member of its own
standardization set. -/
theorem standardize_person_rules :
    (∀ L F : PyStr, isToken L → isToken F →
        standardize_person (L ++ ',' :: ' ' :: F) = F ++ ' ' :: L) ∧
      (∀ s p0 p1 t0 t1 t2 : PyStr, '(' ∉ s → splitCS s = [p0, p1] →
        wsSplit (p1 ++ ' ' :: p0) = [t0, t1, t2] →
        standardize_person s = t0 ++ ' ' :: t2) ∧
      (∀ s t0 t1 : PyStr, wsSplit (standardize_person s) = [t0, t1] →
        t1 ∈ standardize s) ∧
      (∀ s : PyStr, s ∈ standardize s) := by
  refine ⟨?_, ?_, ?_, ?_⟩
  · intro L F hL hF
    have hparen : '(' ∉ L ++ ',' :: ' ' :: F := by
      intro hmem
      rcases List.mem_append.mp hmem with h | h
      · exact (hL.2 '(' h).2.2 rfl
      · simp only [List.mem_cons] at h
        rcases h with h | h | h
        · exact absurd h (by decide)
        · exact absurd h (by decide)
        · exact (hF.2 '(' h).2.2 rfl
    have hsplit : splitCS (L ++ ',' :: ' ' :: F) = [L, F] := by
      rw [splitCS_append (fun hmem => (hL.2 ',' hmem).2.1 rfl),
        splitCS_no_space (fun hmem => absurd ((hF.2 ' ' hmem).1) (by decide))]
    have hws : wsSplit (F ++ ' ' :: L) = [F, L] :=
      wsSplit_two_tokens (fun c hc => (hF.2 c hc).1) (fun c hc => (hL.2 c hc).1) hF.1 hL.1
    unfold standardize_person
    rw [stripParen_no_paren hparen]
    simp only [hsplit, hws]
  · intro s p0 p1 t0 t1 t2 hpar hsplit hws
    unfold standardize_person
    rw [stripParen_no_paren hpar]
    simp only [hsplit, hws]
  · intro s t0 t1 h
    unfold standardize
    simp only [h]
    simp
  · intro s
    unfold standardize
    dsimp only
    split
    · simp
    · simp

/-- C6 witness: the four parts of the standardization theorem evaluated
on concrete names. -/
theorem standardize_person_rules_witness :
    standardize_person (pys "Clinton" ++ ',' :: ' ' :: pys "Bill") =
        pys "Bill" ++ ' ' :: pys "Clinton" ∧
      standardize_person (pys "Smith, John Q") = pys "John" ++ ' ' :: pys "Smith" ∧
      pys "Clinton" ∈ standardize (pys "Clinton, Bill") ∧
      pys "Paris" ∈ standardize (pys "Paris") :=
  ⟨standardize_person_rules.1 (pys "Clinton") (pys "Bill") (by decide) (by decide),
    standardize_person_rules.2.1 (pys "Smith, John Q") (pys "Smith") (pys "John Q")
      (pys "John") (pys "Q") (pys "Smith") (by decide) (by decide) (by decide),
    standardize_person_rules.2.2.1 (pys "Clinton, Bill") (pys "Bill") (pys "Clinton")
      (by decide),
    standardize_person_rules.2.2.2 (pys "Paris")⟩

/-- C10 counterexample: `"Smith, John Q"` has the form `"A, B"` with no
parenthesis (`splitCS` gives exactly the two parts `"Smith"` and
`"John Q"`), yet the inverted form `"John Q Smith"` is NOT among its
standardizations: the three-token middle elision turns it into
`"John Smith"` first. -/
theorem standardize_inversion_counterexample :
    '(' ∉ pys "Smith, John Q" ∧
      splitCS (pys "Smith, John Q") = [pys "Smith", pys "John Q"] ∧
      pys "John Q" ++ ' ' :: pys "Smith" ∉ standardize (pys "Smith, John Q") := by
  refine ⟨by decide, by decide, by decide⟩

/-- C10 amended: `standardize` takes only the raw string — the person
inversion applies to every input regardless of entity type — and for a
string of the form `"A, B"` with no parenthesis the inverted form
`"B A"` is among its standardizations PROVIDED `"B A"` does not have
exactly three whitespace tokens (in which case the middle token is
elided first). -/
theorem standardize_type_blind_inversion :
    ∀ s p0 p1 : PyStr, '(' ∉ s → splitCS s = [p0, p1] →
      (wsSplit (p1 ++ ' ' :: p0)).length ≠ 3 → p1 ++ ' ' :: p0 ∈ standardize s := by
  intro s p0 p1 hpar hsplit hlen
  have hper : standardize_person s = p1 ++ ' ' :: p0 := by
    unfold standardize_person
    rw [stripParen_no_paren hpar]
    simp only [hsplit]
    rcases hws : wsSplit (p1 ++ ' ' :: p0) with _ | ⟨a, _ | ⟨b, _ | ⟨c, _ | ⟨d, tl⟩⟩⟩⟩
    · rfl
    · rfl
    · rfl
    · exact absurd (by rw [hws]; rfl) hlen
    · rfl
  unfold standardize
  dsimp only
  rw [hper]
  split <;> simp

/-- C10 witness: the amended inversion theorem evaluated on the
location-typed name `"Paris, France"`. -/
theorem standardize_type_blind_inversion_witness :
    pys "France" ++ ' ' :: pys "Paris" ∈ standardize (pys "Paris, France") :=
  standardize_type_blind_inversion (pys "Paris, France") (pys "Paris") (pys "France")
    (by decide) (by decide) (by decide)

/-- C7: when a later sighting of a registered entity name carries a
conflicting type, the merge attempt fails and is caught: the catalog —
in particular the existing entry and its type — is left unchanged, and
the remaining entities are processed on the unchanged catalog (no
exception propagates; the traversal is the total fold). -/
theorem compute_entities_conflict_ignored (cat : Catalog) (e old : Entity)
    (rest : List Entity) (hfind : catFind cat (entityStr e) = some old)
    (hconf : old.type_ ≠ e.type_) :
    registerEntity cat e = cat ∧
      catFind (registerEntity cat e) (entityStr e) = some old ∧
      (e :: rest).foldl registerEntity cat = rest.foldl registerEntity cat := by
  have herr : update_info old e = .error () := by
    unfold update_info
    rw [if_pos hconf]
  have hreg : registerEntity cat e = cat := by
    unfold registerEntity
    rw [hfind]
    dsimp only
    rw [herr]
  exact ⟨hreg, by rw [hreg, hfind], by rw [List.foldl_cons, hreg]⟩

/-- C7 witness: the conflict theorem evaluated on a concrete catalog
holding `Paris` as a location and a later person-typed sighting. -/
theorem compute_entities_conflict_ignored_witness :
    registerEntity exCat exConflict = exCat ∧
      catFind (registerEntity exCat exConflict) (entityStr exConflict) =
        some ⟨pys "Paris", EType.location, ∅⟩ ∧
      ([exConflict, exLater] : List Entity).foldl registerEntity exCat =
        [exLater].foldl registerEntity exCat :=
  compute_entities_conflict_ignored exCat exConflict ⟨pys "Paris", EType.location, ∅⟩
    [exLater] (by decide) (by decide)

theorem allocSpan_next (art : HArticle) :
    ∀ (sp : List Nat) (h : Heap) (next : Nat),
      (allocSpan art h next sp).2.1 = next + sp.length := by
  intro sp
  induction sp with
  | nil => intro h next; simp [allocSpan]
  | cons idx rest ih =>
    intro h next
    simp only [allocSpan]
    rw [ih]
    simp only [List.length_cons]
    omega

theorem allocSpan_heap_lt (art : HArticle) :
    ∀ (sp : List Nat) (h : Heap) (next r : Nat), r < next →
      (allocSpan art h next sp).1 r = h r := by
  intro sp
  induction sp with
  | nil => intro h next r _; rfl
  | cons idx rest ih =>
    intro h next r hr
    simp only [allocSpan]
    rw [ih _ _ _ (by omega)]
    simp only [if_neg (by omega : ¬r = next)]

theorem allocSpan_refs_range (art : HArticle) :
    ∀ (sp : List Nat) (h : Heap) (next : Nat) (p : Nat × Nat),
      p ∈ (allocSpan art h next sp).2.2 → next ≤ p.2 ∧ p.2 < next + sp.length := by
  intro sp
  induction sp with
  | nil => intro h next p hp; simp [allocSpan] at hp
  | cons idx rest ih =>
    intro h next p hp
    simp only [allocSpan, List.mem_cons] at hp
    rcases hp with hp | hp
    · rw [hp]
      simp only [List.length_cons]
      omega
    · have := ih _ _ _ hp
      simp only [List.length_cons]
      omega

theorem allocSpan_content (art : HArticle) :
    ∀ (sp : List Nat) (h : Heap) (next : Nat), (∀ i, art.sentRef i < next) →
      ∀ p ∈ (allocSpan art h next sp).2.2,
        (allocSpan art h next sp).1 p.2 = h (art.sentRef p.1) := by
  intro sp
  induction sp with
  | nil => intro h next _ p hp; simp [allocSpan] at hp
  | cons idx rest ih =>
    intro h next hart p hp
    simp only [allocSpan, List.mem_cons] at hp ⊢
    rcases hp with hp | hp
    · rw [hp]
      rw [allocSpan_heap_lt art rest _ (next + 1) next (by omega)]
      simp
    · rw [ih _ (next + 1) (fun i => by have := hart i; omega) p hp]
      simp only [if_neg (by have := hart p.1; omega : ¬art.sentRef p.1 = next)]

theorem materializeContexts_heap_lt (art : HArticle) :
    ∀ (spans : List (List Nat)) (h : Heap) (next r : Nat), r < next →
      (materializeContexts art h next spans).1 r = h r := by
  intro spans
  induction spans with
  | nil => intro h next r _; rfl
  | cons sp rest ih =>
    intro h next r hr
    simp only [materializeContexts]
    rw [ih _ _ _ (by rw [allocSpan_next]; omega)]
    exact allocSpan_heap_lt art sp h next r hr

theorem materializeContexts_refs_ge (art : HArticle) :
    ∀ (spans : List (List Nat)) (h : Heap) (next : Nat) (ctx : CtxSnapshot),
      ctx ∈ (materializeContexts art h next spans).2.2 →
      ∀ p ∈ ctx.sentences, next ≤ p.2 := by
  intro spans
  induction spans with
  | nil => intro h next ctx hctx; simp [materializeContexts] at hctx
  | cons sp rest ih =>
    intro h next ctx hctx p hp
    simp only [materializeContexts, List.mem_cons] at hctx
    rcases hctx with hctx | hctx
    · rw [hctx] at hp
      exact (allocSpan_refs_range art sp h next p hp).1
    · have := ih _ _ _ hctx p hp
      rw [allocSpan_next] at this
      omega

theorem materializeContexts_content (art : HArticle) :
    ∀ (spans : List (List Nat)) (h : Heap) (next : Nat), (∀ i, art.sentRef i < next) →
      ∀ ctx ∈ (materializeContexts art h next spans).2.2, ∀ p ∈ ctx.sentences,
        (materializeContexts art h next spans).1 p.2 = h (art.sentRef p.1) := by
  intro spans
  induction spans with
  | nil => intro h next _ ctx hctx; simp [materializeContexts] at hctx
  | cons sp rest ih =>
    intro h next hart ctx hctx p hp
    simp only [materializeContexts, List.mem_cons] at hctx ⊢
    rcases hctx with hctx | hctx
    · rw [hctx] at hp
      have hlt : p.2 < (allocSpan art h next sp).2.1 := by
        rw [allocSpan_next]
        exact (allocSpan_refs_range art sp h next p hp).2
      rw [materializeContexts_heap_lt art rest _ _ _ hlt]
      exact allocSpan_content art sp h next hart p hp
    · have hart2 : ∀ i, art.sentRef i < (allocSpan art h next sp).2.1 := by
        intro i
        rw [allocSpan_next]
        have := hart i
        omega
      rw [ih _ _ hart2 ctx hctx p hp]
      exact allocSpan_heap_lt art sp h next _ (hart p.1)

/-- C8: every materialized context holds deep copies of the
participating sentences: no heap address of a context snapshot is an
address of the article's sentence table, each copied cell holds the
content the article's sentence had at materialization time, and
overwriting any of the article's sentences afterwards leaves every
context cell unchanged. -/
theorem contexts_hold_deep_copies (art : HArticle) (h : Heap) (next : Nat)
    (spans : List (List Nat)) (hart : ∀ i, art.sentRef i < next) :
    (∀ ctx ∈ (materializeContexts art h next spans).2.2, ∀ p ∈ ctx.sentences,
        ∀ i, p.2 ≠ art.sentRef i) ∧
      (∀ ctx ∈ (materializeContexts art h next spans).2.2, ∀ p ∈ ctx.sentences,
        (materializeContexts art h next spans).1 p.2 = h (art.sentRef p.1)) ∧
      (∀ ctx ∈ (materializeContexts art h next spans).2.2, ∀ p ∈ ctx.sentences, ∀ i v,
        heapWrite (materializeContexts art h next spans).1 (art.sentRef i) v p.2 =
          (materializeContexts art h next spans).1 p.2) := by
  have hfresh : ∀ ctx ∈ (materializeContexts art h next spans).2.2, ∀ p ∈ ctx.sentences,
      ∀ i, p.2 ≠ art.sentRef i := by
    intro ctx hctx p hp i
    have h1 := materializeContexts_refs_ge art spans h next ctx hctx p hp
    have h2 := hart i
    omega
  refine ⟨hfresh, materializeContexts_content art spans h next hart, ?_⟩
  intro ctx hctx p hp i v
  unfold heapWrite
  rw [if_neg (hfresh ctx hctx p hp i)]

/-- C8 witness: the deep-copy theorem evaluated on a concrete article,
heap and span list. -/
theorem contexts_hold_deep_copies_witness :
    (∀ ctx ∈ (materializeContexts exHArt exHeap 5 [[3, 4]]).2.2, ∀ p ∈ ctx.sentences,
        ∀ i, p.2 ≠ exHArt.sentRef i) ∧
      (∀ ctx ∈ (materializeContexts exHArt exHeap 5 [[3, 4]]).2.2, ∀ p ∈ ctx.sentences,
        (materializeContexts exHArt exHeap 5 [[3, 4]]).1 p.2 = exHeap (exHArt.sentRef p.1)) ∧
      (∀ ctx ∈ (materializeContexts exHArt exHeap 5 [[3, 4]]).2.2, ∀ p ∈ ctx.sentences, ∀ i v,
        heapWrite (materializeContexts exHArt exHeap 5 [[3, 4]]).1 (exHArt.sentRef i) v p.2 =
          (materializeContexts exHArt exHeap 5 [[3, 4]]).1 p.2) :=
  contexts_hold_deep_copies exHArt exHeap 5 [[3, 4]]
    (fun i => Nat.mod_lt i (by decide))

theorem filterKeepSets_fst_mem (k : Nat) :
    ∀ (ts : List DBTuple) (init : Finset (List PyStr) × Finset PyStr × Finset PyStr)
      (x : List PyStr),
      (x ∈ (ts.foldl
          (fun acc t =>
            if k ≤ t.article_ids.card then
              (insert (tupleName t) acc.1, acc.2.1 ∪ t.article_ids,
                acc.2.2 ∪ (t.entities.map Entity.name).toFinset)
            else acc)
          init).1 ↔
        x ∈ init.1 ∨ ∃ t ∈ ts, k ≤ t.article_ids.card ∧ tupleName t = x) := by
  intro ts
  induction ts with
  | nil => intro init x; simp
  | cons t ts ih =>
    intro init x
    rw [List.foldl_cons]
    by_cases hc : k ≤ t.article_ids.card
    · rw [if_pos hc, ih]
      simp only [Finset.mem_insert, List.mem_cons]
      constructor
      · rintro (⟨h | h⟩ | ⟨t', ht', hk, hn⟩)
        · exact Or.inr ⟨t, Or.inl rfl, hc, h.symm⟩
        · exact Or.inl h
        · exact Or.inr ⟨t', Or.inr ht', hk, hn⟩
      · rintro (h | ⟨t', ht' | ht', hk, hn⟩)
        · exact Or.inl (Or.inr h)
        · subst ht'
          exact Or.inl (Or.inl hn.symm)
        · exact Or.inr ⟨t', ht', hk, hn⟩
    · rw [if_neg hc, ih]
      simp only [List.mem_cons]
      constructor
      · rintro (h | ⟨t', ht', hk, hn⟩)
        · exact Or.inl h
        · exact Or.inr ⟨t', Or.inr ht', hk, hn⟩
      · rintro (h | ⟨t', ht' | ht', hk, hn⟩)
        · exact Or.inl h
        · subst ht'
          exact absurd hk hc
        · exact Or.inr ⟨t', ht', hk, hn⟩

theorem filterKeepSets_art_mem (k : Nat) :
    ∀ (ts : List DBTuple) (init : Finset (List PyStr) × Finset PyStr × Finset PyStr)
      (a : PyStr),
      (a ∈ (ts.foldl
          (fun acc t =>
            if k ≤ t.article_ids.card then
              (insert (tupleName t) acc.1, acc.2.1 ∪ t.article_ids,
                acc.2.2 ∪ (t.entities.map Entity.name).toFinset)
            else acc)
          init).2.1 ↔
        a ∈ init.2.1 ∨ ∃ t ∈ ts, k ≤ t.article_ids.card ∧ a ∈ t.article_ids) := by
  intro ts
  induction ts with
  | nil => intro init a; simp
  | cons t ts ih =>
    intro init a
    rw [List.foldl_cons]
    by_cases hc : k ≤ t.article_ids.card
    · rw [if_pos hc, ih]
      simp only [Finset.mem_union, List.mem_cons]
      constructor
      · rintro (⟨h | h⟩ | ⟨t', ht', hk, hn⟩)
        · exact Or.inl h
        · exact Or.inr ⟨t, Or.inl rfl, hc, h⟩
        · exact Or.inr ⟨t', Or.inr ht', hk, hn⟩
      · rintro (h | ⟨t', ht' | ht', hk, hn⟩)
        · exact Or.inl (Or.inl h)
        · subst ht'
          exact Or.inl (Or.inr hn)
        · exact Or.inr ⟨t', ht', hk, hn⟩
    · rw [if_neg hc, ih]
      simp only [List.mem_cons]
      constructor
      · rintro (h | ⟨t', ht', hk, hn⟩)
        · exact Or.inl h
        · exact Or.inr ⟨t', Or.inr ht', hk, hn⟩
      · rintro (h | ⟨t', ht' | ht', hk, hn⟩)
        · exact Or.inl h
        · subst ht'
          exact absurd hk hc
        · exact Or.inr ⟨t', ht', hk, hn⟩

theorem filterKeepSets_ent_mem (k : Nat) :
    ∀ (ts : List DBTuple) (init : Finset (List PyStr) × Finset PyStr × Finset PyStr)
      (n : PyStr),
      (n ∈ (ts.foldl
          (fun acc t =>
            if k ≤ t.article_ids.card then
              (insert (tupleName t) acc.1, acc.2.1 ∪ t.article_ids,
                acc.2.2 ∪ (t.entities.map Entity.name).toFinset)
            else acc)
          init).2.2 ↔
        n ∈ init.2.2 ∨ ∃ t ∈ ts, k ≤ t.article_ids.card ∧
          n ∈ (t.entities.map Entity.name).toFinset) := by
  intro ts
  induction ts with
  | nil => intro init n; simp
  | cons t ts ih =>
    intro init n
    rw [List.foldl_cons]
    by_cases hc : k ≤ t.article_ids.card
    · rw [if_pos hc, ih]
      simp only [Finset.mem_union, List.mem_cons]
      constructor
      · rintro (⟨h | h⟩ | ⟨t', ht', hk, hn⟩)
        · exact Or.inl h
        · exact Or.inr ⟨t, Or.inl rfl, hc, h⟩
        · exact Or.inr ⟨t', Or.inr ht', hk, hn⟩
      · rintro (h | ⟨t', ht' | ht', hk, hn⟩)
        · exact Or.inl (Or.inl h)
        · subst ht'
          exact Or.inl (Or.inr hn)
        · exact Or.inr ⟨t', ht', hk, hn⟩
    · rw [if_neg hc, ih]
      simp only [List.mem_cons]
      constructor
      · rintro (h | ⟨t', ht', hk, hn⟩)
        · exact Or.inl h
        · exact Or.inr ⟨t', Or.inr ht', hk, hn⟩
      · rintro (h | ⟨t', ht' | ht', hk, hn⟩)
        · exact Or.inl h
        · subst ht'
          exact absurd hk hc
        · exact Or.inr ⟨t', ht', hk, hn⟩

/-- C3: after `Database.filter` with `min_articles = k`, every
surviving tuple has at least `k` article ids, every surviving article
id belongs to some surviving tuple's `article_ids`, and every surviving
entity name is the name of an entity of some surviving tuple. The
hypothesis records that tuples with the same canonical string form have
the same support set (true of `compute_tuples` output, which builds one
tuple per canonical key). -/
theorem filter_fixed_point (db : DB) (k : Nat)
    (hname : ∀ t1 ∈ db.tuples, ∀ t2 ∈ db.tuples, tupleName t1 = tupleName t2 →
      t1.article_ids = t2.article_ids) :
    (∀ t ∈ (filterDB db k).tuples, k ≤ t.article_ids.card) ∧
      (∀ a ∈ (filterDB db k).articles, ∃ t ∈ (filterDB db k).tuples, a ∈ t.article_ids) ∧
      (∀ n ∈ (filterDB db k).entities, ∃ t ∈ (filterDB db k).tuples, ∃ e ∈ t.entities,
        entityStr e = n) := by
  have htup : ∀ t, t ∈ (filterDB db k).tuples ↔
      t ∈ db.tuples ∧ tupleName t ∈ (filterKeepSets db.tuples k).1 := by
    intro t
    simp [filterDB, List.mem_filter]
  have hsurv : ∀ t ∈ db.tuples, k ≤ t.article_ids.card → t ∈ (filterDB db k).tuples := by
    intro t ht hk
    rw [htup]
    refine ⟨ht, ?_⟩
    rw [filterKeepSets, filterKeepSets_fst_mem]
    exact Or.inr ⟨t, ht, hk, rfl⟩
  refine ⟨?_, ?_, ?_⟩
  · intro t ht
    rw [htup] at ht
    obtain ⟨ht, hkeep⟩ := ht
    rw [filterKeepSets, filterKeepSets_fst_mem] at hkeep
    rcases hkeep with h | ⟨t', ht', hk, hn⟩
    · exact absurd h (Finset.not_mem_empty _)
    · rw [hname t ht t' ht' hn.symm]
      exact hk
  · intro a ha
    have ha2 : a ∈ (filterKeepSets db.tuples k).2.1 := by
      have : a ∈ db.articles.filter (fun a => a ∈ (filterKeepSets db.tuples k).2.1) := ha
      exact (Finset.mem_filter.mp this).2
    rw [filterKeepSets, filterKeepSets_art_mem] at ha2
    rcases ha2 with h | ⟨t, ht, hk, hmem⟩
    · exact absurd h (Finset.not_mem_empty _)
    · exact ⟨t, hsurv t ht hk, hmem⟩
  · intro n hn
    have hn2 : n ∈ (filterKeepSets db.tuples k).2.2 := by
      have : n ∈ db.entities.filter (fun n => n ∈ (filterKeepSets db.tuples k).2.2) := hn
      exact (Finset.mem_filter.mp this).2
    rw [filterKeepSets, filterKeepSets_ent_mem] at hn2
    rcases hn2 with h | ⟨t, ht, hk, hmem⟩
    · exact absurd h (Finset.not_mem_empty _)
    · rw [List.mem_toFinset, List.mem_map] at hmem
      obtain ⟨e, he, hen⟩ := hmem
      exact ⟨t, hsurv t ht hk, e, he, hen⟩

/-- C3 witness: the filter theorem evaluated on the concrete database
at threshold 2. -/
theorem filter_fixed_point_witness :
    2 ≤ exT1.article_ids.card ∧
      (∃ t ∈ (filterDB exDB 2).tuples, pys "a1" ∈ t.article_ids) ∧
      (∃ t ∈ (filterDB exDB 2).tuples, ∃ e ∈ t.entities, entityStr e = pys "X") :=
  ⟨(filter_fixed_point exDB 2 (by decide)).1 exT1 (by decide),
    (filter_fixed_point exDB 2 (by decide)).2.1 (pys "a1") (by decide),
    (filter_fixed_point exDB 2 (by decide)).2.2 (pys "X") (by decide)⟩

theorem rankRel_total (articles : List (PyStr × List Entity)) :
    ∀ a b, rankRel articles a b ∨ rankRel articles b a := by
  intro a b
  unfold rankRel
  rcases Nat.lt_trichotomy (idsOf articles a).card (idsOf articles b).card with h | h | h
  · right; left; exact h
  · rcases le_total (pyReprTuple a) (pyReprTuple b) with hs | hs
    · right; right; exact ⟨h.symm, hs⟩
    · left; right; exact ⟨h, hs⟩
  · left; left; exact h

theorem rankRel_trans (articles : List (PyStr × List Entity)) :
    ∀ a b c, rankRel articles a b → rankRel articles b c → rankRel articles a c := by
  intro a b c hab hbc
  unfold rankRel at hab hbc ⊢
  rcases hab with h1 | ⟨h1, h1s⟩ <;> rcases hbc with h2 | ⟨h2, h2s⟩
  · left; omega
  · left; omega
  · left; omega
  · right; exact ⟨by omega, le_trans h2s h1s⟩

theorem rankRel_antisymm_on (articles : List (PyStr × List Entity)) {a b : List PyStr}
    (hinj : pyReprTuple a = pyReprTuple b → a = b)
    (hab : rankRel articles a b) (hba : rankRel articles b a) : a = b := by
  unfold rankRel at hab hba
  rcases hab with h1 | ⟨h1, h1s⟩ <;> rcases hba with h2 | ⟨h2, h2s⟩
  · omega
  · omega
  · omega
  · exact hinj (le_antisymm h2s h1s)

/-- C4: `compute_tuples` assigns the identifiers `"1"`, `"2"`, … in
ranking order; the ranking is a permutation of the key set sorted in
descending `(article-support count, canonical string form)` order, and
— when the canonical string form separates the keys — it is the unique
such sorted permutation, hence independent of the dict's insertion
order. -/
theorem compute_tuples_ranking (catalog : PyStr → Entity)
    (articles : List (PyStr × List Entity)) :
    (∀ i (h : i < (computeTuples catalog articles).length),
        ((computeTuples catalog articles).get ⟨i, h⟩).id_ = natToPyStr (i + 1)) ∧
      (rankingOf articles).Perm (tupleKeysList articles) ∧
      List.Sorted (rankRel articles) (rankingOf articles) ∧
      (∀ l : List (List PyStr), l.Perm (tupleKeysList articles) →
        (∀ k1 ∈ tupleKeysList articles, ∀ k2 ∈ tupleKeysList articles,
          pyReprTuple k1 = pyReprTuple k2 → k1 = k2) →
        List.insertionSort (rankRel articles) l = rankingOf articles) := by
  haveI : IsTotal (List PyStr) (rankRel articles) := ⟨rankRel_total articles⟩
  haveI : IsTrans (List PyStr) (rankRel articles) := ⟨rankRel_trans articles⟩
  refine ⟨?_, List.perm_insertionSort _ _, List.sorted_insertionSort _ _, ?_⟩
  · intro i h
    simp only [computeTuples, List.get_eq_getElem, List.getElem_map, List.getElem_enum]
  · intro l hperm hinj
    have hsort1 : List.Sorted (rankRel articles) (List.insertionSort (rankRel articles) l) :=
      List.sorted_insertionSort _ _
    have hsort2 : List.Sorted (rankRel articles) (rankingOf articles) :=
      List.sorted_insertionSort _ _
    have hp : (List.insertionSort (rankRel articles) l).Perm (rankingOf articles) :=
      (List.perm_insertionSort _ l).trans
        (hperm.trans (List.perm_insertionSort _ (tupleKeysList articles)).symm)
    apply List.Perm.eq_of_sorted ?_ hsort1 hsort2 hp
    intro a b ha hb hab hba
    have ha2 : a ∈ tupleKeysList articles :=
      hperm.mem_iff.mp ((List.perm_insertionSort _ l).mem_iff.mp ha)
    have hb2 : b ∈ tupleKeysList articles :=
      (List.perm_insertionSort _ (tupleKeysList articles)).mem_iff.mp hb
    exact rankRel_antisymm_on articles (hinj a ha2 b hb2) hab hba

/-- C4 witness: the ranking theorem evaluated on the one-article
corpus. -/
theorem compute_tuples_ranking_witness :
    ((computeTuples exCatalog exArticles).get ⟨0, by decide⟩).id_ = natToPyStr 1 ∧
      List.insertionSort (rankRel exArticles) (tupleKeysList exArticles) =
        rankingOf exArticles :=
  ⟨(compute_tuples_ranking exCatalog exArticles).1 0 (by decide),
    (compute_tuples_ranking exCatalog exArticles).2.2.2 (tupleKeysList exArticles)
      (List.Perm.refl _) (by decide)⟩

theorem cq_inner_mem {χ : Type*} (t : DBTuple) (a : PyStr) (p : PyStr × Query χ) :
    ∀ (L : List (PyStr × χ)) (init : List (PyStr × Query χ)),
      (p ∈ L.foldl (fun qs3 pc => qs3 ++ [qEntry t a pc]) init ↔
        p ∈ init ∨ ∃ pc ∈ L, p = qEntry t a pc) := by
  intro L
  induction L with
  | nil =>
    intro init
    rw [List.foldl_nil]
    exact (or_iff_left (by rintro ⟨pc, hpc, -⟩; exact absurd hpc (List.not_mem_nil pc))).symm
  | cons pc L ih =>
    intro init
    rw [List.foldl_cons, ih]
    constructor
    · rintro (h | ⟨pc', hpc', hp⟩)
      · rcases List.mem_append.mp h with h | h
        · exact Or.inl h
        · exact Or.inr ⟨pc, List.mem_cons_self _ _, List.mem_singleton.mp h⟩
      · exact Or.inr ⟨pc', List.mem_cons_of_mem _ hpc', hp⟩
    · rintro (h | ⟨pc', hpc', hp⟩)
      · exact Or.inl (List.mem_append.mpr (Or.inl h))
      · rcases List.mem_cons.mp hpc' with h2 | h2
        · subst h2
          exact Or.inl (List.mem_append.mpr (Or.inr (List.mem_singleton.mpr hp)))
        · exact Or.inr ⟨pc', h2, hp⟩

theorem cq_mid_mem {χ : Type*} (contexts : PyStr → List PyStr → List (PyStr × χ))
    (t : DBTuple) (p : PyStr × Query χ) :
    ∀ (as_ : List PyStr) (init : List (PyStr × Query χ)),
      (p ∈ as_.foldl
          (fun qs2 a =>
            (contexts a (tupleName t)).foldl (fun qs3 pc => qs3 ++ [qEntry t a pc]) qs2)
          init ↔
        p ∈ init ∨ ∃ a ∈ as_, ∃ pc ∈ contexts a (tupleName t), p = qEntry t a pc) := by
  intro as_
  induction as_ with
  | nil =>
    intro init
    rw [List.foldl_nil]
    exact (or_iff_left (by rintro ⟨a, ha, -⟩; exact absurd ha (List.not_mem_nil a))).symm
  | cons a as_ ih =>
    intro init
    rw [List.foldl_cons, ih]
    rw [cq_inner_mem]
    constructor
    · rintro ((h | ⟨pc, hpc, hp⟩) | ⟨a', ha', pc, hpc, hp⟩)
      · exact Or.inl h
      · exact Or.inr ⟨a, List.mem_cons_self _ _, pc, hpc, hp⟩
      · exact Or.inr ⟨a', List.mem_cons_of_mem _ ha', pc, hpc, hp⟩
    · rintro (h | ⟨a', ha', pc, hpc, hp⟩)
      · exact Or.inl (Or.inl h)
      · rcases List.mem_cons.mp ha' with h2 | h2
        · subst h2
          exact Or.inl (Or.inr ⟨pc, hpc, hp⟩)
        · exact Or.inr ⟨a', h2, pc, hpc, hp⟩

theorem cq_mem {χ : Type*} (contexts : PyStr → List PyStr → List (PyStr × χ))
    (tuples : List DBTuple) (p : PyStr × Query χ) :
    p ∈ computeQueries contexts tuples ↔
      ∃ t ∈ tuples, ∃ a ∈ finsort t.article_ids, ∃ pc ∈ contexts a (tupleName t),
        p = qEntry t a pc := by
  have gen : ∀ (ts : List DBTuple) (init : List (PyStr × Query χ)),
      (p ∈ ts.foldl
          (fun qs t =>
            (finsort t.article_ids).foldl
              (fun qs2 a =>
                (contexts a (tupleName t)).foldl
                  (fun qs3 pc => qs3 ++ [qEntry t a pc]) qs2)
              qs)
          init ↔
        p ∈ init ∨ ∃ t ∈ ts, ∃ a ∈ finsort t.article_ids,
          ∃ pc ∈ contexts a (tupleName t), p = qEntry t a pc) := by
    intro ts
    induction ts with
    | nil =>
      intro init
      rw [List.foldl_nil]
      exact (or_iff_left (by rintro ⟨t, ht, -⟩; exact absurd ht (List.not_mem_nil t))).symm
    | cons t ts ih =>
      intro init
      rw [List.foldl_cons, ih, cq_mid_mem]
      constructor
      · rintro ((h | ⟨a, ha, pc, hpc, hp⟩) | ⟨t', ht', rest⟩)
        · exact Or.inl h
        · exact Or.inr ⟨t, List.mem_cons_self _ _, a, ha, pc, hpc, hp⟩
        · exact Or.inr ⟨t', List.mem_cons_of_mem _ ht', rest⟩
      · rintro (h | ⟨t', ht', rest⟩)
        · exact Or.inl (Or.inl h)
        · rcases List.mem_cons.mp ht' with h2 | h2
          · subst h2
            exact Or.inl (Or.inr rest)
          · exact Or.inr ⟨t', h2, rest⟩
  have h := gen tuples []
  unfold computeQueries
  rw [h]
  exact or_iff_right (fun hx => absurd hx (List.not_mem_nil p))

theorem append_underscore_inj : ∀ (a1 : PyStr) {a2 rest1 rest2 : PyStr}, '_' ∉ a1 →
    '_' ∉ a2 → a1 ++ '_' :: rest1 = a2 ++ '_' :: rest2 → a1 = a2 ∧ rest1 = rest2 := by
  intro a1
  induction a1 with
  | nil =>
    intro a2 rest1 rest2 _ h2 h
    rcases a2 with _ | ⟨y, a2'⟩
    · rw [List.nil_append, List.nil_append] at h
      exact ⟨rfl, (List.cons.injEq _ _ _ _).mp h |>.2⟩
    · rw [List.nil_append, List.cons_append] at h
      have hy := ((List.cons.injEq _ _ _ _).mp h).1
      exact absurd (hy ▸ List.mem_cons_self y a2') h2
  | cons x a1' ih =>
    intro a2 rest1 rest2 h1 h2 h
    rcases a2 with _ | ⟨y, a2'⟩
    · rw [List.cons_append, List.nil_append] at h
      have hx := ((List.cons.injEq _ _ _ _).mp h).1
      exact absurd (hx ▸ List.mem_cons_self x a1') h1
    · rw [List.cons_append, List.cons_append] at h
      obtain ⟨hxy, htail⟩ := (List.cons.injEq _ _ _ _).mp h
      have h1' : '_' ∉ a1' := fun hm => h1 (List.mem_cons_of_mem x hm)
      have h2' : '_' ∉ a2' := fun hm => h2 (List.mem_cons_of_mem y hm)
      obtain ⟨he, hr⟩ := ih h1' h2' htail
      exact ⟨by rw [hxy, he], hr⟩

theorem underscoreJoin_three (a t c : PyStr) :
    underscoreJoin [a, t, c] = a ++ '_' :: (t ++ '_' :: c) := by
  simp [underscoreJoin, List.intercalate]

theorem join3_inj {a1 t1 c1 a2 t2 c2 : PyStr} (ha1 : '_' ∉ a1) (ha2 : '_' ∉ a2)
    (ht1 : '_' ∉ t1) (ht2 : '_' ∉ t2)
    (h : underscoreJoin [a1, t1, c1] = underscoreJoin [a2, t2, c2]) :
    a1 = a2 ∧ t1 = t2 ∧ c1 = c2 := by
  rw [underscoreJoin_three, underscoreJoin_three] at h
  obtain ⟨h1, h2⟩ := append_underscore_inj a1 ha1 ha2 h
  obtain ⟨h3, h4⟩ := append_underscore_inj t1 ht1 ht2 h2
  exact ⟨h1, h3, h4⟩

/-- C5: every query entry produced by `compute_queries` is keyed by its
query's identifier, which is `'_'.join([article_id, tuple_rank_id,
context_id])` for a `(tuple, article, context)` triple of the input;
and — article ids and tuple rank ids being underscore-free, as the rank
ids `"1"`, `"2"`, … produced by `compute_tuples` are — distinct triples
receive distinct identifiers. Determinism holds by construction: the
embedding is a pure function of its input. -/
theorem compute_queries_id_unique {χ : Type*}
    (contexts : PyStr → List PyStr → List (PyStr × χ)) (tuples : List DBTuple)
    (hart : ∀ t ∈ tuples, ∀ a ∈ t.article_ids, '_' ∉ a)
    (htid : ∀ t ∈ tuples, '_' ∉ t.id_) :
    (∀ p ∈ computeQueries contexts tuples,
        p.1 = p.2.id_ ∧
          p.2.id_ = underscoreJoin [p.2.article_id, p.2.tuple_.id_, p.2.context_id] ∧
          p.2.tuple_ ∈ tuples ∧ p.2.article_id ∈ p.2.tuple_.article_ids) ∧
      (∀ p ∈ computeQueries contexts tuples, ∀ q ∈ computeQueries contexts tuples,
        (p.2.tuple_.id_, p.2.article_id, p.2.context_id) ≠
          (q.2.tuple_.id_, q.2.article_id, q.2.context_id) →
        p.2.id_ ≠ q.2.id_) := by
  have hform : ∀ p ∈ computeQueries contexts tuples,
      p.1 = p.2.id_ ∧
        p.2.id_ = underscoreJoin [p.2.article_id, p.2.tuple_.id_, p.2.context_id] ∧
        p.2.tuple_ ∈ tuples ∧ p.2.article_id ∈ p.2.tuple_.article_ids := by
    intro p hp
    rw [cq_mem] at hp
    obtain ⟨t, ht, a, ha, pc, hpc, hp⟩ := hp
    subst hp
    exact ⟨rfl, rfl, ht, mem_finsort.mp ha⟩
  refine ⟨hform, ?_⟩
  intro p hp q hq hne heq
  obtain ⟨-, hpid, hpt, hpa⟩ := hform p hp
  obtain ⟨-, hqid, hqt, hqa⟩ := hform q hq
  rw [hpid, hqid] at heq
  obtain ⟨h1, h2, h3⟩ :=
    join3_inj (hart _ hpt _ hpa) (hart _ hqt _ hqa) (htid _ hpt) (htid _ hqt) heq
  exact hne (by rw [h1, h2, h3])

/-- C5 witness: the identifier-uniqueness theorem evaluated on two
concrete query entries of the same tuple in different articles. -/
theorem compute_queries_id_unique_witness :
    (qEntry (χ := Unit) exQTuple (pys "7") (pys "0", ())).2.id_ ≠
      (qEntry (χ := Unit) exQTuple (pys "8") (pys "0", ())).2.id_ :=
  (compute_queries_id_unique exContexts [exQTuple] (by decide) (by decide)).2
    (qEntry exQTuple (pys "7") (pys "0", ()))
    ((cq_mem exContexts [exQTuple] _).mpr
      ⟨exQTuple, by decide, pys "7", by decide, (pys "0", ()), by decide, rfl⟩)
    (qEntry exQTuple (pys "8") (pys "0", ()))
    ((cq_mem exContexts [exQTuple] _).mpr
      ⟨exQTuple, by decide, pys "8", by decide, (pys "0", ()), by decide, rfl⟩)
    (by decide)
